import Mathlib

/-!
Verification of the annotation state engine of `systole/interact/interact.py`
(classes `Viewer` and `Editor`).

The embedding models:
* the JSON persistence contract (`Editor.save`, the loading part of
  `Viewer.load_signal`);
* the peak-edit operations of `Editor.on_remove` / `Editor.on_add`
  (range deletion, insertion at the sample of maximal amplitude);
* the bad-segment bookkeeping of the `Rejection` branches of
  `Editor.on_remove` / `Editor.on_add`, whose normalization step
  `systole.utils.norm_bad_segments` is modelled from the specification
  since its source is outside the analysed file.

Signals hold numeric samples; amplitudes are modelled as integers (only
their ordering matters to the operations verified here).  Boolean peak
vectors are `List Bool`, JSON documents are finite maps from string keys
to per-modality blocks.
-/

namespace Systole

/-- One per-modality block of the corrected JSON document:
`{"valid": bool, "corrected_peaks": [int, ...], "bad_segments": [int, ...] | null}`. -/
structure CorrectedInfo where
  valid : Bool
  corrected_peaks : List Nat
  bad_segments : Option (List Int)
deriving DecidableEq, Repr

/-- A parsed corrected JSON document: a map from (lower-cased) signal-type
keys to blocks, `none` meaning the key is absent. -/
abbrev Document := String → Option CorrectedInfo

/-- Python `str.lower()` on the ASCII signal-type tags: lower-case every
character (defined over the character list so that it evaluates by kernel
reduction). -/
def lowerString (s : String) : String :=
  ⟨s.data.map Char.toLower⟩

/-- Embedding of `np.where(peaks)[0].tolist()`: the ascending list of indices where the
boolean peaks vector is true (`Editor.save`). -/
def trueIndices (peaks : List Bool) : List Nat :=
  (List.range peaks.length).filter (fun i => peaks.getD i false)

/-- Embedding of `Editor.save`: read the existing document (the `doc` argument, `{}` when
the file does not exist), replace only the block keyed by the lower-cased
signal type, keep every other key.  `bad_segments` serializes as the flat
list, or `null` when the list is empty (Python truthiness of `self.bad_segments`). -/
def save (doc : Document) (signal_type : String) (valid : Bool)
    (peaks : List Bool) (bad_segments : List Int) : Document :=
  fun k =>
    if k = lowerString signal_type then
      some { valid := valid
             corrected_peaks := trueIndices peaks
             bad_segments := if bad_segments.isEmpty then none else some bad_segments }
    else doc k

/-- The exception raised by `json_data[key]` on a missing key. -/
inductive LoadError where
  | keyError
deriving DecidableEq, Repr

/-- Embedding of `self.corrected_peaks[np.array(indices)] = True`: set the vector to true
at every index of the list (`Viewer.load_signal`). -/
def setPeaksAt (idxs : List Nat) (v : List Bool) : List Bool :=
  idxs.foldl (fun w i => w.set i true) v

/-- The JSON-reading part of `Viewer.load_signal` (lines 345-361), for an
existing document: look up `json_data[signal_type.lower()]` (raising
`KeyError` when the block is absent), take its `bad_segments` as stored, and
rebuild the boolean peaks vector of length `n = len(self.input_signal)` from
the `corrected_peaks` indices. -/
def load_signal (doc : Document) (signal_type : String) (n : Nat) :
    Except LoadError (Option (List Int) × List Bool) :=
  match doc (lowerString signal_type) with
  | none => .error .keyError
  | some info =>
      .ok (info.bad_segments, setPeaksAt info.corrected_peaks (List.replicate n false))

/-- A concrete persisted document holding only an `"ecg"` block. -/
def docEcgOnly : Document :=
  fun k => if k = "ecg" then some ⟨true, [10], some [3, 5]⟩ else none

/-! Section: bad-segment intervals.

`Editor.on_remove` / `Editor.on_add` keep `self.bad_segments` as a flat
list `[s1, e1, s2, e2, ...]`; they convert it to a list of pairs, call
`systole.utils.norm_bad_segments`, and flatten the result back. -/

/-- Embedding of `[(l[i], l[i+1]) for i in range(0, len(l), 2)]` on an even-length flat
list: the list of (start, end) pairs. -/
def toPairs : List Int → List (Int × Int)
  | a :: b :: rest => (a, b) :: toPairs rest
  | _ => []

/-- Embedding of `list(np.array(pairs).flatten())`: back to the flat representation. -/
def flattenPairs (l : List (Int × Int)) : List Int :=
  l.flatMap (fun p => [p.1, p.2])

/-- Ordering of intervals by their start bound. -/
def startLE (a b : Int × Int) : Prop := a.1 ≤ b.1

instance : DecidableRel startLE := fun a b => inferInstanceAs (Decidable (a.1 ≤ b.1))

instance : IsTotal (Int × Int) startLE := ⟨fun a b => le_total a.1 b.1⟩

instance : IsTrans (Int × Int) startLE := ⟨fun _ _ _ hab hbc => le_trans hab hbc⟩

/-- Zero-width intervals are invalid and dropped (spec §4.1 edge cases and §9). -/
def dropEmptyIntervals (l : List (Int × Int)) : List (Int × Int) :=
  l.filter (fun p => decide (p.1 < p.2))

/-- Carve the span of the good interval out of one bad interval: untouched
when disjoint, otherwise keep the (non-degenerate) left and right remainders. -/
def carveInterval (good iv : Int × Int) : List (Int × Int) :=
  if iv.2 ≤ good.1 ∨ good.2 ≤ iv.1 then [iv]
  else (if iv.1 < good.1 then [(iv.1, good.1)] else []) ++
    (if good.2 < iv.2 then [(good.2, iv.2)] else [])

/-- Merge pass over a list sorted by start: absorb the next interval into the
current one while they overlap or touch (`start₂ ≤ end₁`), else emit. -/
def mergeTouchingGo : (Int × Int) → List (Int × Int) → List (Int × Int)
  | cur, [] => [cur]
  | cur, q :: rest =>
    if q.1 ≤ cur.2 then mergeTouchingGo (cur.1, max cur.2 q.2) rest
    else cur :: mergeTouchingGo q rest

/-- Merge overlapping or touching intervals of a list sorted by start. -/
def mergeTouching : List (Int × Int) → List (Int × Int)
  | [] => []
  | p :: rest => mergeTouchingGo p rest

/-- Sort intervals by their start bound. -/
def sortByStart (l : List (Int × Int)) : List (Int × Int) :=
  List.insertionSort startLE l

/-- Modelled from the spec: `systole.utils.norm_bad_segments` is imported from
`systole/utils.py`, which is not part of the analysed source.  Per spec §4.1:
with no good segments, drop zero-width intervals, sort by start and merge any
intervals that overlap or touch into single spanning intervals; with good
segments, first carve each (non-degenerate) good interval out of every bad
interval (full cover deletes, partial overlap truncates, straddling splits),
then re-run the same normalization merge pass. -/
def norm_bad_segments (bad : List (Int × Int)) (good : Option (List (Int × Int))) :
    List (Int × Int) :=
  let carved :=
    match good with
    | none => bad
    | some goods =>
        (dropEmptyIntervals goods).foldl
          (fun segs g => segs.flatMap (fun iv => carveInterval g iv)) bad
  mergeTouching (sortByStart (dropEmptyIntervals carved))

/-- The `Rejection` branch of `Editor.on_remove`: append the selected bounds
to the flat list, pair it up, normalize, flatten back. -/
def markBad (flat : List Int) (tmin tmax : Int) : List Int :=
  flattenPairs (norm_bad_segments (toPairs (flat ++ [tmin, tmax])) none)

/-- The `Rejection` branch of `Editor.on_add`: normalize the current flat list
against the selected good segment, flatten back. -/
def unmarkBad (flat : List Int) (tmin tmax : Int) : List Int :=
  flattenPairs (norm_bad_segments (toPairs flat) (some [(tmin, tmax)]))

/-! Section: peak editing. -/

/-- Embedding of `np.argmax`: index of the first occurrence of the maximal value of a
non-empty list (0 on the empty list, which numpy instead rejects; the empty
case is fenced off in `insert_strongest_peak`). -/
def argmaxIdx : List Int → Nat
  | [] => 0
  | [_] => 0
  | x :: y :: rest =>
    if (y :: rest).getD (argmaxIdx (y :: rest)) 0 > x then argmaxIdx (y :: rest) + 1
    else 0

/-- The `Correction` branch of `Editor.on_add`:
`self.peaks[tmin + np.argmax(self.signal[tmin:tmax])] = True`.  On an empty
slice `np.argmax` raises `ValueError` before any mutation. -/
def insert_strongest_peak (signal : List Int) (peaks : List Bool) (tmin tmax : Nat) :
    Except String (List Bool) :=
  let window := (signal.drop tmin).take (tmax - tmin)
  if window.isEmpty then .error "attempt to get argmax of an empty sequence"
  else .ok (peaks.set (tmin + argmaxIdx window) true)

/-- The `Correction` branch of `Editor.on_remove`:
`self.peaks[tmin:tmax] = False` (slice assignment clips to the vector). -/
def removePeaks (peaks : List Bool) (tmin tmax : Nat) : List Bool :=
  peaks.mapIdx (fun j b => if tmin ≤ j ∧ j < tmax then false else b)

/-- The elementary peak insertion `peaks[i] = True` (the spec operation
`insert_peak`; out-of-bounds indices leave the vector unchanged in this
embedding, matching the claim restricted to valid indices). -/
def insert_peak (peaks : List Bool) (i : Nat) : List Bool :=
  peaks.set i true

/-- The `self.edition_.value` toggle. -/
inductive EditionMode where
  | Correction
  | Rejection
deriving DecidableEq, Repr

/-- The mutable annotation state of an `Editor`. -/
structure EditorState where
  peaks : List Bool
  bad_segments : List Int
deriving DecidableEq, Repr

/-- Embedding of `Editor.on_remove` (mode dispatch on `self.edition_.value`). -/
def on_remove (mode : EditionMode) (st : EditorState) (tmin tmax : Nat) : EditorState :=
  match mode with
  | .Correction => { st with peaks := removePeaks st.peaks tmin tmax }
  | .Rejection =>
      { st with bad_segments := markBad st.bad_segments (tmin : Int) (tmax : Int) }

/-- Embedding of `Editor.on_add` (mode dispatch; the `Correction` branch propagates the
`ValueError` of `np.argmax` on an empty slice). -/
def on_add (mode : EditionMode) (signal : List Int) (st : EditorState)
    (tmin tmax : Nat) : Except String EditorState :=
  match mode with
  | .Correction =>
      match insert_strongest_peak signal st.peaks tmin tmax with
      | .error e => .error e
      | .ok r => .ok { st with peaks := r }
  | .Rejection =>
      .ok { st with bad_segments := unmarkBad st.bad_segments (tmin : Int) (tmax : Int) }

/-- The part of a `Viewer` an `Editor.__init__` reads:
`viewer.bad_segments`, which `Viewer.load_signal` leaves either a flat list
or `None`. -/
structure ViewerState where
  bad_segments : Option (List Int)

/-- The initialisation of `self.bad_segments` in `Editor.__init__`:
`self.bad_segments = []`, then `if viewer is not None:
self.bad_segments = viewer.bad_segments`.  The `bad_segments` constructor
parameter is received but never read. -/
def editorInitBadSegments (viewer : Option ViewerState)
    (bad_segments : Option (List Int)) : Option (List Int) :=
  match viewer with
  | none => some []
  | some v => v.bad_segments

/-! Section: lemmas about the peaks round trip. -/

theorem length_setPeaksAt (idxs : List Nat) (v : List Bool) :
    (setPeaksAt idxs v).length = v.length := by
  induction idxs generalizing v with
  | nil => rfl
  | cons i rest ih =>
      simp only [setPeaksAt, List.foldl_cons] at *
      rw [ih, List.length_set]

theorem getD_setPeaksAt (idxs : List Nat) (v : List Bool) (j : Nat)
    (hb : ∀ i ∈ idxs, i < v.length) :
    (setPeaksAt idxs v).getD j false =
      (if j ∈ idxs then true else v.getD j false) := by
  induction idxs generalizing v with
  | nil => simp [setPeaksAt]
  | cons i rest ih =>
      have hi : i < v.length := hb i (List.mem_cons_self i rest)
      have hb' : ∀ m ∈ rest, m < (v.set i true).length := by
        intro m hm
        rw [List.length_set]
        exact hb m (List.mem_cons_of_mem i hm)
      simp only [setPeaksAt, List.foldl_cons]
      rw [show (rest.foldl (fun w m => w.set m true) (v.set i true)) =
            setPeaksAt rest (v.set i true) from rfl]
      rw [ih (v.set i true) hb']
      by_cases hjr : j ∈ rest
      · rw [if_pos hjr, if_pos (List.mem_cons_of_mem i hjr)]
      · by_cases hji : j = i
        · subst hji
          rw [if_neg hjr, if_pos (List.mem_cons_self j rest)]
          rw [List.getD_eq_getElem?_getD, List.getElem?_set_eq_of_lt true hi]
          rfl
        · rw [if_neg hjr, if_neg (by simp [List.mem_cons, hji, hjr])]
          rw [List.getD_eq_getElem?_getD, List.getD_eq_getElem?_getD,
            List.getElem?_set_ne (fun h => hji h.symm)]

theorem mem_trueIndices (peaks : List Bool) (j : Nat) :
    j ∈ trueIndices peaks ↔ j < peaks.length ∧ peaks.getD j false = true := by
  simp [trueIndices, List.mem_filter, List.mem_range]

theorem trueIndices_lt (peaks : List Bool) :
    ∀ i ∈ trueIndices peaks, i < peaks.length := by
  intro i hi
  exact ((mem_trueIndices peaks i).mp hi).1

/-- Rebuilding a boolean vector from its list of true indices over a
fresh all-false vector of the same length gives back the vector. -/
theorem setPeaksAt_trueIndices (peaks : List Bool) :
    setPeaksAt (trueIndices peaks) (List.replicate peaks.length false) = peaks := by
  apply List.ext_getElem
  · rw [length_setPeaksAt, List.length_replicate]
  · intro j h1 h2
    have hlen : (List.replicate peaks.length false).length = peaks.length := by
      simp
    have hb : ∀ i ∈ trueIndices peaks,
        i < (List.replicate peaks.length false).length := by
      intro i hi
      rw [hlen]
      exact trueIndices_lt peaks i hi
    have hset : (setPeaksAt (trueIndices peaks) (List.replicate peaks.length false)).getD j
        false = (if j ∈ trueIndices peaks then true else
          (List.replicate peaks.length false).getD j false) :=
      getD_setPeaksAt _ _ j hb
    have hj : j < peaks.length := h2
    have hrep : (List.replicate peaks.length false).getD j false = false := by
      rw [List.getD_eq_getElem?_getD, List.getElem?_replicate]
      split <;> rfl
    have hgoal : (setPeaksAt (trueIndices peaks) (List.replicate peaks.length false)).getD j
        false = peaks.getD j false := by
      rw [hset, hrep]
      by_cases hmem : j ∈ trueIndices peaks
      · rw [if_pos hmem]
        exact (((mem_trueIndices peaks j).mp hmem).2).symm
      · rw [if_neg hmem]
        cases hx : peaks.getD j false with
        | true => exact absurd ((mem_trueIndices peaks j).mpr ⟨hj, hx⟩) hmem
        | false => rfl
    rw [List.getD_eq_getElem?_getD, List.getD_eq_getElem?_getD] at hgoal
    rw [List.getElem?_eq_getElem h1, List.getElem?_eq_getElem hj] at hgoal
    simpa using hgoal

/-! Section: lemmas about interval normalization. -/

theorem toPairs_flattenPairs (l : List (Int × Int)) : toPairs (flattenPairs l) = l := by
  induction l with
  | nil => rfl
  | cons p rest ih =>
      simp only [flattenPairs, List.flatMap_cons] at *
      rw [show ([p.1, p.2] ++ rest.flatMap fun q => [q.1, q.2]) =
            p.1 :: p.2 :: rest.flatMap (fun q => [q.1, q.2]) from rfl]
      rw [toPairs, ih]

/-- The merge pass keeps the start of the current interval as the head of its
output, and can only enlarge the current end. -/
theorem mergeTouchingGo_cons (rest : List (Int × Int)) (cur : Int × Int) :
    ∃ e t, mergeTouchingGo cur rest = (cur.1, e) :: t ∧ cur.2 ≤ e := by
  induction rest generalizing cur with
  | nil => exact ⟨cur.2, [], rfl, le_refl _⟩
  | cons q rs ih =>
      rw [mergeTouchingGo]
      by_cases hq : q.1 ≤ cur.2
      · rw [if_pos hq]
        obtain ⟨e, t, heq, hle⟩ := ih (cur.1, max cur.2 q.2)
        exact ⟨e, t, heq, le_trans (le_max_left _ _) hle⟩
      · rw [if_neg hq]
        exact ⟨cur.2, mergeTouchingGo q rs, rfl, le_refl _⟩

/-- On input sorted by start, the merge pass returns a list that is still
sorted by start and where consecutive intervals satisfy `end₁ < start₂`. -/
theorem mergeTouchingGo_normalized (rest : List (Int × Int)) (cur : Int × Int)
    (h : (cur :: rest).Chain' startLE) :
    (mergeTouchingGo cur rest).Chain' startLE ∧
      (mergeTouchingGo cur rest).Chain' (fun a b => a.2 < b.1) := by
  induction rest generalizing cur with
  | nil => exact ⟨List.chain'_singleton _, List.chain'_singleton _⟩
  | cons q rs ih =>
      have h1 : startLE cur q := (List.chain'_cons.mp h).1
      have h2 : (q :: rs).Chain' startLE := (List.chain'_cons.mp h).2
      rw [mergeTouchingGo]
      by_cases hq : q.1 ≤ cur.2
      · rw [if_pos hq]
        apply ih
        rw [List.chain'_cons']
        refine ⟨?_, (List.chain'_cons'.mp h2).2⟩
        intro y hy
        exact le_trans h1 ((List.chain'_cons'.mp h2).1 y hy)
      · rw [if_neg hq]
        obtain ⟨hs, he⟩ := ih q h2
        obtain ⟨e, t, heq, _⟩ := mergeTouchingGo_cons rs q
        constructor
        · rw [heq, List.chain'_cons]
          exact ⟨h1, heq ▸ hs⟩
        · rw [heq, List.chain'_cons]
          exact ⟨lt_of_not_le hq, heq ▸ he⟩

/-- Sorting then merging yields a sorted, non-overlapping, non-touching list. -/
theorem mergeTouching_sortByStart_normalized (l : List (Int × Int)) :
    (mergeTouching (sortByStart l)).Chain' startLE ∧
      (mergeTouching (sortByStart l)).Chain' (fun a b => a.2 < b.1) := by
  have hsorted : (sortByStart l).Chain' startLE :=
    (List.sorted_insertionSort startLE l).chain'
  cases heq : sortByStart l with
  | nil => exact ⟨List.chain'_nil, List.chain'_nil⟩
  | cons p rest => exact mergeTouchingGo_normalized rest p (heq ▸ hsorted)

/-- The modelled normalization always produces a sorted list of pairwise
non-overlapping, non-touching intervals. -/
theorem norm_bad_segments_normalized (bad : List (Int × Int))
    (good : Option (List (Int × Int))) :
    (norm_bad_segments bad good).Chain' startLE ∧
      (norm_bad_segments bad good).Chain' (fun a b => a.2 < b.1) :=
  mergeTouching_sortByStart_normalized _

/-! Section: lemmas about argmax. -/

theorem argmaxIdx_lt : ∀ (l : List Int), l ≠ [] → argmaxIdx l < l.length
  | [], h => absurd rfl h
  | [_], _ => Nat.zero_lt_one
  | x :: y :: rest, _ => by
      rw [argmaxIdx]
      by_cases hc : (y :: rest).getD (argmaxIdx (y :: rest)) 0 > x
      · rw [if_pos hc]
        have := argmaxIdx_lt (y :: rest) (by simp)
        simpa using Nat.succ_lt_succ this
      · rw [if_neg hc]
        simp

theorem argmaxIdx_getD_le :
    ∀ (l : List Int) (k : Nat), k < l.length → l.getD k 0 ≤ l.getD (argmaxIdx l) 0
  | [], k, h => absurd h (by simp)
  | [x], k, h => by
      have hk : k = 0 := by
        simp only [List.length_singleton] at h
        omega
      subst hk
      exact le_refl _
  | x :: y :: rest, k, h => by
      rw [argmaxIdx]
      by_cases hc : (y :: rest).getD (argmaxIdx (y :: rest)) 0 > x
      · rw [if_pos hc]
        rw [List.getD_cons_succ]
        cases k with
        | zero =>
            rw [List.getD_cons_zero]
            exact le_of_lt hc
        | succ k =>
            rw [List.getD_cons_succ]
            exact argmaxIdx_getD_le (y :: rest) k (by simpa using Nat.lt_of_succ_lt_succ h)
      · rw [if_neg hc]
        rw [List.getD_cons_zero]
        cases k with
        | zero => rw [List.getD_cons_zero]
        | succ k =>
            rw [List.getD_cons_succ]
            exact le_trans
              (argmaxIdx_getD_le (y :: rest) k (by simpa using Nat.lt_of_succ_lt_succ h))
              (not_lt.mp hc)

/-! Section: claim theorems. -/

/-- Claim C1: saving an annotation state under a signal-type tag and then
loading that same tag from the written document reproduces exactly the same
peaks vector (hence the same ascending set of true peak indices) and the same
bad-segment flat list, with a null bad-segment entry when none were marked. -/
theorem save_load_roundtrip (doc : Document) (tag : String) (valid : Bool)
    (peaks : List Bool) (bad : List Int) :
    load_signal (save doc tag valid peaks bad) tag peaks.length =
      Except.ok ((if bad.isEmpty then none else some bad), peaks) := by
  have hsave : save doc tag valid peaks bad (lowerString tag) =
      some ⟨valid, trueIndices peaks, if bad.isEmpty then none else some bad⟩ := by
    unfold save
    rw [if_pos rfl]
  unfold load_signal
  rw [hsave]
  show Except.ok ((if bad.isEmpty = true then none else some bad),
      setPeaksAt (trueIndices peaks) (List.replicate peaks.length false)) =
    Except.ok ((if bad.isEmpty = true then none else some bad), peaks)
  rw [setPeaksAt_trueIndices]

/-- Claim C2: for an existing persisted document, save replaces only the block
keyed by the lower-cased signal-type tag and leaves the block stored under
every other key unchanged. -/
theorem save_preserves_other_blocks (doc : Document) (tag : String) (valid : Bool)
    (peaks : List Bool) (bad : List Int) (k : String) (h : k ≠ lowerString tag) :
    save doc tag valid peaks bad k = doc k := by
  unfold save
  rw [if_neg h]

/-- Witness for C2: saving a `"ppg"` block leaves the `"ecg"` block of an
existing document untouched. -/
theorem save_preserves_other_blocks_witness :
    save docEcgOnly "ppg" true [] [] "ecg" = docEcgOnly "ecg" :=
  save_preserves_other_blocks docEcgOnly "ppg" true [] [] "ecg" (by decide)

/-- Claim C3 (code behaviour at the failing input): loading a signal type
whose block is absent from an existing document raises `KeyError`
(`json_data[self.signal_type_.value.lower()]` in `Viewer.load_signal`)
instead of reporting a "no prior annotation" condition. -/
theorem load_missing_block_raises :
    load_signal docEcgOnly "resp" 1000 = Except.error LoadError.keyError := rfl

/-- Claim C6: after every mark-bad and every unmark-bad operation, the flat
bad-segment list, read back as intervals, is sorted by start and any two
consecutive intervals satisfy end₁ < start₂ (no overlapping, no touching). -/
theorem mark_unmark_normalized (flat : List Int) (tmin tmax : Int) :
    ((toPairs (markBad flat tmin tmax)).Chain' startLE ∧
      (toPairs (markBad flat tmin tmax)).Chain' (fun a b => a.2 < b.1)) ∧
    ((toPairs (unmarkBad flat tmin tmax)).Chain' startLE ∧
      (toPairs (unmarkBad flat tmin tmax)).Chain' (fun a b => a.2 < b.1)) := by
  constructor
  · unfold markBad
    rw [toPairs_flattenPairs]
    exact norm_bad_segments_normalized _ _
  · unfold unmarkBad
    rw [toPairs_flattenPairs]
    exact norm_bad_segments_normalized _ _

/-- Claim C4: marking bad an interval that overlaps or touches an existing
interval merges the two into a single spanning interval; in particular marking
`[10,20)` then `[15,25)` starting from an empty set yields exactly `[10,25)`. -/
theorem mark_bad_merges (a b c d : Int) (hab : a < b) (hcd : c < d)
    (hac : a ≤ c) (hcb : c ≤ b) :
    markBad [a, b] c d = [a, max b d] ∧
    markBad (markBad [] 10 20) 15 25 = [10, 25] := by
  constructor
  · unfold markBad norm_bad_segments
    show flattenPairs (mergeTouching (sortByStart
        (dropEmptyIntervals [(a, b), (c, d)]))) = [a, max b d]
    have h1 : dropEmptyIntervals [(a, b), (c, d)] = [(a, b), (c, d)] := by
      simp [dropEmptyIntervals, hab, hcd]
    have h2 : sortByStart [(a, b), (c, d)] = [(a, b), (c, d)] := by
      simp [sortByStart, List.insertionSort, List.orderedInsert, startLE, hac]
    have h3 : mergeTouching [(a, b), (c, d)] = [(a, max b d)] := by
      show mergeTouchingGo (a, b) [(c, d)] = [(a, max b d)]
      rw [mergeTouchingGo, if_pos (show (c, d).1 ≤ (a, b).2 from hcb)]
      rfl
    rw [h1, h2, h3]
    rfl
  · decide

/-- Reduction of the `Rejection` branch of `Editor.on_add` for a single bad
interval and a single non-degenerate good interval to a carve followed by the
normalization pass. -/
theorem unmarkBad_single (s e gs ge : Int) (hg : gs < ge) :
    unmarkBad [s, e] gs ge =
      flattenPairs (mergeTouching (sortByStart
        (dropEmptyIntervals (carveInterval (gs, ge) (s, e))))) := by
  unfold unmarkBad norm_bad_segments
  have h1 : dropEmptyIntervals [(gs, ge)] = [(gs, ge)] := by
    simp [dropEmptyIntervals, hg]
  show flattenPairs (mergeTouching (sortByStart (dropEmptyIntervals
      ((dropEmptyIntervals [(gs, ge)]).foldl
        (fun segs g => segs.flatMap (fun iv => carveInterval g iv)) [(s, e)])))) =
    flattenPairs (mergeTouching (sortByStart
      (dropEmptyIntervals (carveInterval (gs, ge) (s, e)))))
  rw [h1]
  show flattenPairs (mergeTouching (sortByStart (dropEmptyIntervals
      (carveInterval (gs, ge) (s, e) ++ [])))) = _
  rw [List.append_nil]

/-- Claim C5: unmarking a good interval carves its span out of an overlapping
bad interval: an interval fully covered by the good interval is deleted, a
partially overlapping interval is truncated on the overlapped side, and an
interval straddling the good interval is split into left and right remainders;
with the concrete instances of the claim. -/
theorem unmark_bad_carves (s e gs ge : Int) :
    (s < gs → gs < ge → ge < e → unmarkBad [s, e] gs ge = [s, gs, ge, e]) ∧
    (gs ≤ s → s < e → e ≤ ge → unmarkBad [s, e] gs ge = []) ∧
    (s < gs → gs < e → e ≤ ge → unmarkBad [s, e] gs ge = [s, gs]) ∧
    (gs ≤ s → s < ge → ge < e → unmarkBad [s, e] gs ge = [ge, e]) ∧
    unmarkBad [10, 20] 5 25 = [] ∧
    unmarkBad [10, 30] 15 20 = [10, 15, 20, 30] := by
  refine ⟨?_, ?_, ?_, ?_, by decide, by decide⟩
  · intro hsg hge hee
    rw [unmarkBad_single s e gs ge hge]
    have hc : carveInterval (gs, ge) (s, e) = [(s, gs), (ge, e)] := by
      rw [carveInterval, if_neg (by simp only [not_or, not_le]; omega)]
      rw [if_pos (show (s, e).1 < (gs, ge).1 from hsg),
        if_pos (show (gs, ge).2 < (s, e).2 from hee)]
      rfl
    rw [hc]
    have h1 : dropEmptyIntervals [(s, gs), (ge, e)] = [(s, gs), (ge, e)] := by
      simp [dropEmptyIntervals, hsg, hee]
    have h2 : sortByStart [(s, gs), (ge, e)] = [(s, gs), (ge, e)] := by
      simp [sortByStart, List.insertionSort, List.orderedInsert, startLE,
        show s ≤ ge by omega]
    have h3 : mergeTouching [(s, gs), (ge, e)] = [(s, gs), (ge, e)] := by
      show mergeTouchingGo (s, gs) [(ge, e)] = [(s, gs), (ge, e)]
      rw [mergeTouchingGo, if_neg (show ¬((ge, e).1 ≤ (s, gs).2) by simp; omega)]
      rfl
    rw [h1, h2, h3]
    rfl
  · intro hgs hse heg
    rw [unmarkBad_single s e gs ge (by omega)]
    have hc : carveInterval (gs, ge) (s, e) = [] := by
      rw [carveInterval, if_neg (by simp only [not_or, not_le]; omega)]
      rw [if_neg (show ¬((s, e).1 < (gs, ge).1) by simp; omega),
        if_neg (show ¬((gs, ge).2 < (s, e).2) by simp; omega)]
      rfl
    rw [hc]
    rfl
  · intro hsg hge heg
    rw [unmarkBad_single s e gs ge (by omega)]
    have hc : carveInterval (gs, ge) (s, e) = [(s, gs)] := by
      rw [carveInterval, if_neg (by simp only [not_or, not_le]; omega)]
      rw [if_pos (show (s, e).1 < (gs, ge).1 from hsg),
        if_neg (show ¬((gs, ge).2 < (s, e).2) by simp; omega)]
      rfl
    rw [hc]
    have h1 : dropEmptyIntervals [(s, gs)] = [(s, gs)] := by
      simp [dropEmptyIntervals, hsg]
    rw [h1]
    rfl
  · intro hgs hsge hgee
    rw [unmarkBad_single s e gs ge (by omega)]
    have hc : carveInterval (gs, ge) (s, e) = [(ge, e)] := by
      rw [carveInterval, if_neg (by simp only [not_or, not_le]; omega)]
      rw [if_neg (show ¬((s, e).1 < (gs, ge).1) by simp; omega),
        if_pos (show (gs, ge).2 < (s, e).2 from hgee)]
      rfl
    rw [hc]
    have h1 : dropEmptyIntervals [(ge, e)] = [(ge, e)] := by
      simp [dropEmptyIntervals, hgee]
    rw [h1]
    rfl

/-- Witness for C4: two overlapping intervals merge into their span. -/
theorem mark_bad_merges_witness :
    markBad [10, 20] 15 25 = [10, max 20 25] ∧
    markBad (markBad [] 10 20) 15 25 = [10, 25] :=
  mark_bad_merges 10 20 15 25 (by decide) (by decide) (by decide) (by decide)

/-- Witness for C5: the straddling carve instance. -/
theorem unmark_bad_carves_witness :
    unmarkBad [10, 30] 15 20 = [10, 15, 20, 30] :=
  (unmark_bad_carves 10 30 15 20).1 (by decide) (by decide) (by decide)

/-- Claim C8: an empty range (start equal to end) makes `on_add` in
`Correction` mode fail with the numpy empty-argmax error before any mutation:
the caller gets the error and no modified state is produced. -/
theorem on_add_empty_range_rejected (signal : List Int) (st : EditorState) (t : Nat) :
    on_add EditionMode.Correction signal st t t =
      Except.error "attempt to get argmax of an empty sequence" := by
  unfold on_add insert_strongest_peak
  simp

/-- Claim C7: on a non-empty half-open range inside the signal bounds,
`insert_strongest_peak` succeeds; the written index
`tmin + argmax(signal[tmin:tmax])` lies inside the range, the signal there is
maximal over the range, the result holds true there, and every other peak
entry is unchanged. -/
theorem insert_strongest_peak_argmax (signal : List Int) (peaks : List Bool)
    (tmin tmax : Nat) (h1 : tmin < tmax) (h2 : tmax ≤ signal.length)
    (hlen : peaks.length = signal.length) :
    ∃ r, insert_strongest_peak signal peaks tmin tmax = Except.ok r ∧
      tmin + argmaxIdx ((signal.drop tmin).take (tmax - tmin)) < tmax ∧
      (∀ k, tmin ≤ k → k < tmax →
        signal.getD k 0 ≤
          signal.getD (tmin + argmaxIdx ((signal.drop tmin).take (tmax - tmin))) 0) ∧
      r.getD (tmin + argmaxIdx ((signal.drop tmin).take (tmax - tmin))) false = true ∧
      (∀ j, j ≠ tmin + argmaxIdx ((signal.drop tmin).take (tmax - tmin)) →
        r.getD j false = peaks.getD j false) := by
  have hwlen : ((signal.drop tmin).take (tmax - tmin)).length = tmax - tmin := by
    rw [List.length_take, List.length_drop]
    omega
  have hwne : (signal.drop tmin).take (tmax - tmin) ≠ [] := by
    apply List.ne_nil_of_length_pos
    omega
  have hidx : argmaxIdx ((signal.drop tmin).take (tmax - tmin)) < tmax - tmin := by
    have hlt := argmaxIdx_lt _ hwne
    omega
  have hwget : ∀ i, i < tmax - tmin →
      ((signal.drop tmin).take (tmax - tmin)).getD i 0 = signal.getD (tmin + i) 0 := by
    intro i hi
    have hiw : i < ((signal.drop tmin).take (tmax - tmin)).length := by omega
    have his : tmin + i < signal.length := by omega
    rw [List.getD_eq_getElem?_getD, List.getD_eq_getElem?_getD,
      List.getElem?_eq_getElem hiw, List.getElem?_eq_getElem his]
    have hval : ((signal.drop tmin).take (tmax - tmin))[i] = signal[tmin + i] := by
      rw [List.getElem_take, List.getElem_drop]
    rw [hval]
  have hempty : ((signal.drop tmin).take (tmax - tmin)).isEmpty = false := by
    cases hcase : (signal.drop tmin).take (tmax - tmin) with
    | nil => exact absurd hcase hwne
    | cons p t => rfl
  have hidxpk : tmin + argmaxIdx ((signal.drop tmin).take (tmax - tmin)) <
      peaks.length := by omega
  refine ⟨peaks.set (tmin + argmaxIdx ((signal.drop tmin).take (tmax - tmin))) true,
    ?_, by omega, ?_, ?_, ?_⟩
  · unfold insert_strongest_peak
    rw [if_neg (by rw [hempty]; exact Bool.false_ne_true)]
  · intro k hk1 hk2
    have hk : k - tmin < tmax - tmin := by omega
    have hmax := argmaxIdx_getD_le ((signal.drop tmin).take (tmax - tmin)) (k - tmin)
      (by omega)
    rw [hwget (k - tmin) hk, hwget _ hidx] at hmax
    rw [show tmin + (k - tmin) = k by omega] at hmax
    exact hmax
  · rw [List.getD_eq_getElem?_getD, List.getElem?_set_eq_of_lt true hidxpk]
    rfl
  · intro j hj
    rw [List.getD_eq_getElem?_getD, List.getD_eq_getElem?_getD,
      List.getElem?_set_ne (fun hh => hj hh.symm)]

/-- Witness for C7: on signal `[0, 5, 3]` over the full range `[0, 3)`, the
strongest peak lands on index 1. -/
theorem insert_strongest_peak_argmax_witness :
    ∃ r, insert_strongest_peak [0, 5, 3] [false, false, false] 0 3 = Except.ok r ∧
      0 + argmaxIdx ((([0, 5, 3] : List Int).drop 0).take (3 - 0)) < 3 ∧
      (∀ k, 0 ≤ k → k < 3 →
        ([0, 5, 3] : List Int).getD k 0 ≤
          ([0, 5, 3] : List Int).getD
            (0 + argmaxIdx ((([0, 5, 3] : List Int).drop 0).take (3 - 0))) 0) ∧
      r.getD (0 + argmaxIdx ((([0, 5, 3] : List Int).drop 0).take (3 - 0))) false = true ∧
      (∀ j, j ≠ 0 + argmaxIdx ((([0, 5, 3] : List Int).drop 0).take (3 - 0)) →
        r.getD j false = [false, false, false].getD j false) :=
  insert_strongest_peak_argmax [0, 5, 3] [false, false, false] 0 3
    (by decide) (by decide) (by decide)

/-- Counterexample for C9 as stated: on the vector `[true]`, inserting a peak
at index 0 and then removing peaks over `[0, 1)` yields `[false]`, not the
original vector. -/
theorem insert_remove_counterexample :
    removePeaks (insert_peak [true] 0) 0 1 ≠ [true] := by decide

/-- Claim C9 (amended): for a valid index `i` at which no peak is currently
set, `insert_peak i` followed by `removePeaks [i, i+1)` restores the peaks
vector to its pre-insert state. -/
theorem insert_remove_restores (peaks : List Bool) (i : Nat)
    (h : i < peaks.length) (hfalse : peaks.getD i false = false) :
    removePeaks (insert_peak peaks i) i (i + 1) = peaks := by
  apply List.ext_getElem
  · simp [removePeaks, insert_peak]
  · intro j h1 h2
    simp only [removePeaks, List.getElem_mapIdx]
    by_cases hij : j = i
    · subst hij
      rw [if_pos ⟨le_refl _, Nat.lt_succ_self _⟩]
      have hpj : peaks.getD j false = peaks[j] := by
        rw [List.getD_eq_getElem?_getD, List.getElem?_eq_getElem h2]
        rfl
      rw [hpj] at hfalse
      exact hfalse.symm
    · rw [if_neg (by omega)]
      simp only [insert_peak]
      exact List.getElem_set_ne (fun hh => hij hh.symm) _

/-- Witness for C9 (amended): on `[false, true]` with `i = 0`, inserting then
removing restores the vector. -/
theorem insert_remove_restores_witness :
    removePeaks (insert_peak [false, true] 0) 0 1 = [false, true] :=
  insert_remove_restores [false, true] 0 (by decide) (by decide)

/-- Claim C10: `Editor.__init__` ignores its `bad_segments` parameter: without
a viewer the initial collection is always the empty list whatever the argument,
and with a viewer it is the `bad_segments` attribute of the viewer (which may be
`None`), again whatever the argument. -/
theorem editor_init_ignores_bad_segments :
    (∀ bs : Option (List Int), editorInitBadSegments none bs = some []) ∧
    (∀ (v : ViewerState) (bs : Option (List Int)),
        editorInitBadSegments (some v) bs = v.bad_segments) :=
  ⟨fun _ => rfl, fun _ _ => rfl⟩

end Systole
